import Mathlib

/-!
Verification of the PBR material importer batch script
(tools/pbr_material_importer/run.py).

The script is shallowly embedded below.  Strings are modelled through their
character lists; Python string operations (substring containment, endswith,
ASCII lowering, pathlib suffix/stem, os.path.basename) are translated into
executable Lean functions.  The regular expressions of the script are all of
two fixed shapes and are translated into explicit predicates:
the slug regex of the form caret (.+)_([0-9]+k) dollar (greedy, IGNORECASE),
and the texture-role regexes of the form (caret or slash) textures/NAME dollar.
Newline corner cases of Python regexes (a dot not matching a newline, dollar
matching before a trailing newline) are not modelled: no input of interest
contains newline characters.  Python str.lower is modelled on ASCII letters,
matching Char.toLower on the file names this tool handles.
-/

/-- Python list-of-chars test: the first list is a leading segment of the
second (used to model startswith/endswith checks). -/
def leadsList : List Char → List Char → Bool
  | [], _ => true
  | _ :: _, [] => false
  | a :: as, b :: bs => (a == b) && leadsList as bs

/-- Auxiliary for substring containment: does the second list contain the
first as a contiguous segment. -/
def hasSubAux (sub : List Char) : List Char → Bool
  | [] => sub.isEmpty
  | c :: rest => leadsList sub (c :: rest) || hasSubAux sub rest

/-- Python membership test "t in s" on strings. -/
def strContains (s t : String) : Bool := hasSubAux t.data s.data

/-- Python s.endswith(t). -/
def strEndsWith (s t : String) : Bool := leadsList t.data.reverse s.data.reverse

/-- ASCII lowering of one character, as Python str.lower acts on the ASCII
file names this tool handles. -/
def lowerChar (c : Char) : Char :=
  if 65 ≤ c.toNat ∧ c.toNat ≤ 90 then Char.ofNat (c.toNat + 32) else c

/-- Python s.lower() (ASCII model). -/
def lowerStr (s : String) : String := String.mk (s.data.map lowerChar)

/-- Lexicographic comparison of character lists by code point, the order
Python uses to compare strings (a proper leading segment comes first). -/
def lexLE : List Char → List Char → Bool
  | [], _ => true
  | _ :: _, [] => false
  | a :: as, b :: bs => if a = b then lexLE as bs else decide (a < b)

/-- Python string comparison s ≤ t. -/
def strLE (s t : String) : Bool := lexLE s.data t.data

/-- Stable insertion into a sorted list: the new element goes in front of
the first element it is below-or-equal to.  Used to model Python's stable
sorted(...): for a total preorder both produce the unique stably sorted
permutation. -/
def insertLE {α : Type} (le : α → α → Bool) (x : α) : List α → List α
  | [] => [x]
  | y :: ys => if le x y then x :: y :: ys else y :: insertLE le x ys

/-- Stable sort by a Boolean order, modelling Python sorted(...). -/
def stableSort {α : Type} (le : α → α → Bool) : List α → List α
  | [] => []
  | x :: xs => insertLE le x (stableSort le xs)

/-- Python truthiness of an optional string: None and the empty string are
falsy (the script tests selections with "if not picked.basecolor"). -/
def optFalsy : Option String → Bool
  | none => true
  | some s => s.data.isEmpty

/-- Split a character list at every occurrence of a separator, Python
str.split style (always at least one piece; empty pieces kept). -/
def splitOnChar (sep : Char) : List Char → List (List Char)
  | [] => [[]]
  | c :: rest =>
    let r := splitOnChar sep rest
    if c = sep then [] :: r
    else
      match r with
      | [] => [[c]]
      | h :: t => (c :: h) :: t

/-- Final path component: everything after the last slash, with empty
components dropped, as pathlib computes the name of a path.  (The special
pathlib components "." and ".." are not modelled; archive members and zip
file names are plain relative file paths.) -/
def lastComponent (s : String) : String :=
  String.mk (((splitOnChar '/' s.data).filter (fun c => !c.isEmpty)).getLastD s.data)

/-- Index of the last dot in a character list, if any. -/
def lastDotIdx : List Char → Option Nat
  | [] => none
  | c :: rest =>
    match lastDotIdx rest with
    | some i => some (i + 1)
    | none => if c = '.' then some 0 else none

/-- Extension of a bare file name (no slashes), pathlib style: the part from
the last dot on, empty when the dot is absent, in position 0, or final. -/
def nameSuffix (cs : List Char) : List Char :=
  match lastDotIdx cs with
  | some i => if 0 < i ∧ i + 1 < cs.length then cs.drop i else []
  | none => []

/-- Python pathlib Path(p).suffix. -/
def pathSuffix (p : String) : String := String.mk (nameSuffix (lastComponent p).data)

/-- Python pathlib Path(p).stem: the final component without its suffix. -/
def pathStem (p : String) : String :=
  let n := (lastComponent p).data
  String.mk (n.take (n.length - (nameSuffix n).length))

/-- Python os.path.basename: everything after the last slash, kept verbatim
(so a trailing slash yields the empty string). -/
def osBasename (s : String) : String :=
  String.mk ((splitOnChar '/' s.data).getLastD s.data)

/-- Does a character list match the regex fragment [0-9]+k with IGNORECASE:
one or more digits followed by a lowercase or uppercase k. -/
def digitsK (cs : List Char) : Bool :=
  match cs with
  | [] => false
  | _ =>
    (!cs.dropLast.isEmpty) && cs.dropLast.all (fun c => c.isDigit)
      && (cs.getLastD ' ' == 'k' || cs.getLastD ' ' == 'K')

/-- Greedy split of the regex caret (.+)_([0-9]+k) dollar: the longest
leading segment (possibly empty here; emptiness is rejected by the caller)
whose remainder is an underscore followed by digits and a k. -/
def splitSlug : List Char → Option (List Char)
  | [] => none
  | c :: rest =>
    match splitSlug rest with
    | some s => some (c :: s)
    | none => if c = '_' ∧ digitsK rest then some [] else none

/-- Embeds _slug_from_zip_name: strip a case-insensitive .zip ending, then
match the base against the greedy slug regex; the slug group must be
nonempty. -/
def slugFromZipName (name : String) : Option String :=
  if strEndsWith (lowerStr name) ".zip" then
    let base := name.data.take (name.data.length - 4)
    match splitSlug base with
    | some s => if s.isEmpty then none else some (String.mk s)
    | none => none
  else none

/-- Embeds _resolution_rank: rank the lowercased stem of a zip path by its
resolution ending, 1k before 2k before 4k before everything else. -/
def resolutionRank (name : String) : Nat :=
  let base := lowerStr (pathStem name)
  if strEndsWith base "_1k" then 1
  else if strEndsWith base "_2k" then 2
  else if strEndsWith base "_4k" then 4
  else 999

/-- Surface keywords of _is_wall_slug. -/
def surfaceKeys : List String :=
  ["asphalt", "crosswalk", "paver", "paving", "terrain", "coast", "rocks", "roof", "tiles"]

/-- Strong wall keywords of _is_wall_slug. -/
def strongWallKeys : List String := ["wall", "cladding"]

/-- Generic wall-ish keywords of _is_wall_slug. -/
def wallishKeys : List String :=
  ["brick", "plaster", "stone", "concrete", "metal", "iron", "shutter", "plate"]

/-- Embeds _is_wall_slug. -/
def isWallSlug (slug : String) : Bool :=
  let s := lowerStr slug
  if strContains s "grass" then false
  else if surfaceKeys.any (fun k => strContains s k) then
    strongWallKeys.any (fun k => strContains s k)
  else wallishKeys.any (fun k => strContains s k)

/-- Sort key of _pick_best, the Python tuple (len(n), n): shorter first,
ties by lexicographic order. -/
def keyLE (a b : String) : Bool :=
  if a.data.length = b.data.length then lexLE a.data b.data
  else decide (a.data.length < b.data.length)

/-- Embeds _pick_best: the first pattern with any hit (patterns are applied
to the lowercased member name) wins, and among its hits the least under the
(length, lexicographic) key is returned. -/
def pickBest (names : List String) (pats : List (String → Bool)) : Option String :=
  match pats with
  | [] => none
  | p :: rest =>
    let hits := names.filter (fun n => p (lowerStr n))
    match (stableSort keyLE hits).head? with
    | some m => some m
    | none => pickBest names rest

/-- One texture-role regex of _pick_textures, of the shape
(caret or slash) textures/SLUG SUFFIX dollar, searched in a lowercased
member name: the name is the target or ends with slash-target. -/
def texPat (slug sfx : String) (low : String) : Bool :=
  let target := "textures/" ++ slug ++ sfx
  (low == target) || strEndsWith low ("/" ++ target)

/-- Base-color patterns of _pick_textures, in source order. -/
def preferredPats (slug : String) : List (String → Bool) :=
  [ texPat slug "_diff_1k.jpg", texPat slug "_albedo_1k.jpg",
    texPat slug "_basecolor_1k.jpg", texPat slug "_color_1k.jpg",
    texPat slug "_diff_1k.png", texPat slug "_albedo_1k.png",
    texPat slug "_basecolor_1k.png", texPat slug "_color_1k.png" ]

/-- Normal-map patterns of _pick_textures, in source order. -/
def normalPats (slug : String) : List (String → Bool) :=
  [ texPat slug "_nor_gl_1k.png", texPat slug "_nor_gl_1k.jpg",
    texPat slug "_normal_gl_1k.png", texPat slug "_normal_gl_1k.jpg" ]

/-- ARM/ORM patterns of _pick_textures, in source order. -/
def armPats (slug : String) : List (String → Bool) :=
  [ texPat slug "_arm_1k.png", texPat slug "_arm_1k.jpg",
    texPat slug "_orm_1k.png", texPat slug "_orm_1k.jpg" ]

/-- The if/elif chain classifying an archive member as an auxiliary file in
_pick_textures. -/
def isExtra (name : String) : Bool :=
  let lower := lowerStr name
  if strContains lower "license" || strContains lower "licence"
      || strContains lower "attribution" then true
  else if strEndsWith lower ".txt" && !(strContains lower "textures/") then true
  else if strEndsWith lower ".md" && !(strContains lower "textures/") then true
  else false

/-- A zip archive as the script observes it: its bare file name, whether
opening it succeeds (zipfile.ZipFile raising is the per-slug archive-read
error), and its non-directory member names (the infolist filtered by
is_dir in _pick_textures). -/
structure Zip where
  name : String
  readable : Bool
  members : List String
deriving DecidableEq

/-- The Picked dataclass of the script. -/
structure Picked where
  slug : String
  zip_path : String
  is_wall : Bool
  basecolor : Option String
  normal_gl : Option String
  arm : Option String
  extra_files : List String
deriving DecidableEq

/-- Embeds the selection part of _pick_textures (the zip is already open;
the member listing is the archive's non-directory entries).  Python's
tuple(sorted(set(extra))) is the sorted duplicate-free list. -/
def pickTextures (slug : String) (z : Zip) : Picked :=
  { slug := slug
    zip_path := z.name
    is_wall := isWallSlug slug
    basecolor := pickBest z.members (preferredPats slug)
    normal_gl := pickBest z.members (normalPats slug)
    arm := pickBest z.members (armPats slug)
    extra_files := stableSort strLE ((z.members.filter isExtra).dedup) }

/-- The slug of a zip archive, from its file name. -/
def slugOf (z : Zip) : Option String := slugFromZipName z.name

/-- Sort key of the initial discovery pass of main:
sorted(DOWNLOADS_DIR.glob, key name.lower()). -/
def nameLE (a b : Zip) : Bool := lexLE (lowerStr a.name).data (lowerStr b.name).data

/-- The discovery list of main: the globbed zips sorted by lowercased file
name (the glob order itself is the order of the input list). -/
def sortedZips (zips : List Zip) : List Zip := stableSort nameLE zips

/-- The groups.setdefault(slug, []).append(zp) step of main on one ordered
association list: the first entry with the slug is extended, otherwise a new
entry is appended, as a Python dict preserves insertion order. -/
def addToGroups (gs : List (String × List Zip)) (slug : String) (z : Zip) :
    List (String × List Zip) :=
  match gs with
  | [] => [(slug, [z])]
  | (s, ps) :: rest =>
    if s = slug then (s, ps ++ [z]) :: rest
    else (s, ps) :: addToGroups rest slug z

/-- The grouping loop of main over the discovery list; zips whose name does
not match the slug pattern are skipped. -/
def buildGroups : List Zip → List (String × List Zip) → List (String × List Zip)
  | [], gs => gs
  | z :: rest, gs =>
    match slugOf z with
    | none => buildGroups rest gs
    | some slug => buildGroups rest (addToGroups gs slug z)

/-- The slug groups main builds for a run over the given zips. -/
def groupsOf (zips : List Zip) : List (String × List Zip) :=
  buildGroups (sortedZips zips) []

/-- Sort key of sorted(paths, key resolution rank) in main. -/
def rankLE (a b : Zip) : Bool := decide (resolutionRank a.name ≤ resolutionRank b.name)

/-- The chosen list of main: per group, the head of the paths stably sorted
by resolution rank.  Groups are nonempty by construction; the impossible
empty case yields no entry. -/
def chosenOf (zips : List Zip) : List (String × Zip) :=
  (groupsOf zips).filterMap
    (fun g => ((stableSort rankLE g.2).head?).map (fun z => (g.1, z)))

/-- Sort key of sorted(chosen, key slug) in main. -/
def slugLE (a b : String × Zip) : Bool := lexLE a.1.data b.1.data

/-- The per-slug processing order of main. -/
def sortedChosen (zips : List Zip) : List (String × Zip) :=
  stableSort slugLE (chosenOf zips)

/-- The output directory of a slug, PBR_DIR / slug, with a trailing slash
for joining. -/
def targetDir (slug : String) : String := "assets/public/pbr/" ++ slug ++ "/"

/-- The extension chosen by _import_one for a member: its pathlib suffix
lowercased, or .jpg when that is empty (Python: suffix.lower() or ".jpg"). -/
def extOrJpg (member : String) : String :=
  let e := lowerStr (pathSuffix member)
  if e.data.isEmpty then ".jpg" else e

/-- The file writes _import_one performs for a selection that passed the
required-maps guard, as destination-path/member pairs; a dry run writes
nothing (it returns before extraction).  Auxiliary members whose basename is
empty are skipped.  Directory creation is not modelled, and the write
operations themselves are assumed to succeed. -/
def importOneWrites (p : Picked) (dryRun : Bool) : List (String × String) :=
  if dryRun then []
  else
    let dir := targetDir p.slug
    let b := p.basecolor.getD ""
    let n := p.normal_gl.getD ""
    let texW := [(dir ++ "basecolor" ++ extOrJpg b, b), (dir ++ "normal_gl" ++ extOrJpg n, n)]
    let armW :=
      match p.arm with
      | some a => if a.data.isEmpty then [] else [(dir ++ "arm" ++ extOrJpg a, a)]
      | none => []
    let extraW := p.extra_files.filterMap (fun e =>
      let safe := osBasename e
      if safe.data.isEmpty then none else some (dir ++ safe, e))
    texW ++ armW ++ extraW

/-- Does processing this chosen slug fail?  Either opening the archive
raises (caught by the batch loop and counted), or the selection lacks a
truthy basecolor or normal map (the skip branch of main; _import_one guards
on the identical condition, so its RuntimeError is unreachable from main). -/
def slugFails (sz : String × Zip) : Bool :=
  !sz.2.readable
    || optFalsy (pickTextures sz.1 sz.2).basecolor
    || optFalsy (pickTextures sz.1 sz.2).normal_gl

/-- Accumulator of the per-slug batch loop of main. -/
structure LoopState where
  failures : Nat
  imported : List Picked
  writes : List (String × String)
deriving DecidableEq

/-- One iteration of the batch loop of main over a chosen slug. -/
def processSlug (dryRun : Bool) (st : LoopState) (sz : String × Zip) : LoopState :=
  if !sz.2.readable then { st with failures := st.failures + 1 }
  else if optFalsy (pickTextures sz.1 sz.2).basecolor
      || optFalsy (pickTextures sz.1 sz.2).normal_gl then
    { st with failures := st.failures + 1 }
  else
    { st with imported := st.imported ++ [pickTextures sz.1 sz.2],
              writes := st.writes ++ importOneWrites (pickTextures sz.1 sz.2) dryRun }

/-- The observable outcome of one invocation of main. -/
structure RunResult where
  exitCode : Nat
  failures : Nat
  imported : List Picked
  writes : List (String × String)
  manifestWritten : Bool
  manifestWarned : Bool
deriving DecidableEq

/-- The destination of the manifest, PBR_DIR / _manifest.json. -/
def manifestDest : String := "assets/public/pbr/_manifest.json"

/-- Embeds main: discovery, grouping, resolution choice, the per-slug batch
loop, manifest emission and the exit code.  The manifestOk flag is the
oracle for whether the manifest write raises (the except branch only warns);
dryRun is the --dry-run switch. -/
def runMain (zips : List Zip) (dryRun : Bool) (manifestOk : Bool) : RunResult :=
  let chosen := chosenOf zips
  if chosen.isEmpty then
    { exitCode := 1, failures := 0, imported := [], writes := [],
      manifestWritten := false, manifestWarned := false }
  else
    let st := (sortedChosen zips).foldl (processSlug dryRun) ⟨0, [], []⟩
    let withManifest :=
      if dryRun then (st.writes, false, false)
      else if manifestOk then (st.writes ++ [(manifestDest, "_manifest")], true, false)
      else (st.writes, false, true)
    { exitCode := if st.failures ≠ 0 then 2 else 0
      failures := st.failures
      imported := st.imported
      writes := withManifest.1
      manifestWritten := withManifest.2.1
      manifestWarned := withManifest.2.2 }

theorem lexLE_refl (l : List Char) : lexLE l l = true := by
  induction l with
  | nil => rfl
  | cons a as ih => simp [lexLE, ih]

theorem lexLE_total (a b : List Char) : (lexLE a b || lexLE b a) = true := by
  induction a generalizing b with
  | nil => simp [lexLE]
  | cons x xs ih =>
    cases b with
    | nil => simp [lexLE]
    | cons y ys =>
      by_cases hxy : x = y
      · subst hxy
        simpa [lexLE] using ih ys
      · have hne : ¬ y = x := fun h => hxy h.symm
        rcases lt_or_gt_of_ne hxy with h | h
        · simp [lexLE, hxy, hne, h]
        · simp [lexLE, hxy, hne, h]

theorem lexLE_trans (a b c : List Char) (hab : lexLE a b = true)
    (hbc : lexLE b c = true) : lexLE a c = true := by
  induction a generalizing b c with
  | nil => rfl
  | cons x xs ih =>
    cases b with
    | nil => simp [lexLE] at hab
    | cons y ys =>
      cases c with
      | nil => simp [lexLE] at hbc
      | cons z zs =>
        by_cases hxy : x = y <;> by_cases hyz : y = z
        · subst hxy; subst hyz
          simp only [lexLE, if_pos rfl] at hab hbc ⊢
          exact ih ys zs hab hbc
        · subst hxy
          simp only [lexLE, if_pos rfl, if_neg hyz] at hab hbc ⊢
          exact hbc
        · subst hyz
          simp only [lexLE, if_pos rfl, if_neg hxy] at hab hbc ⊢
          exact hab
        · simp only [lexLE, if_neg hxy, if_neg hyz, decide_eq_true_eq] at hab hbc
          by_cases hxz : x = z
          · subst hxz; exact absurd (lt_trans hab hbc) (lt_irrefl x)
          · simp only [lexLE, if_neg hxz, decide_eq_true_eq]
            exact lt_trans hab hbc

theorem strLE_total (a b : String) : (strLE a b || strLE b a) = true :=
  lexLE_total a.data b.data

theorem strLE_trans (a b c : String) (hab : strLE a b = true)
    (hbc : strLE b c = true) : strLE a c = true :=
  lexLE_trans a.data b.data c.data hab hbc

theorem keyLE_total (a b : String) : (keyLE a b || keyLE b a) = true := by
  simp only [keyLE]
  by_cases h : a.data.length = b.data.length
  · rw [if_pos h, if_pos h.symm]
    exact lexLE_total a.data b.data
  · have h' : ¬ b.data.length = a.data.length := fun e => h e.symm
    rw [if_neg h, if_neg h']
    rcases Nat.lt_or_ge a.data.length b.data.length with hlt | hge
    · rw [decide_eq_true hlt, Bool.true_or]
    · have hgt : b.data.length < a.data.length := Nat.lt_of_le_of_ne hge h'
      rw [decide_eq_true hgt, Bool.or_true]

theorem keyLE_trans (a b c : String) (hab : keyLE a b = true)
    (hbc : keyLE b c = true) : keyLE a c = true := by
  simp only [keyLE] at hab hbc ⊢
  by_cases h1 : a.data.length = b.data.length <;>
    by_cases h2 : b.data.length = c.data.length
  · rw [if_pos h1] at hab; rw [if_pos h2] at hbc; rw [if_pos (h1.trans h2)]
    exact lexLE_trans _ _ _ hab hbc
  · rw [if_pos h1] at hab; rw [if_neg h2] at hbc
    have h3 : a.data.length < c.data.length :=
      Nat.lt_of_le_of_lt (Nat.le_of_eq h1) (of_decide_eq_true hbc)
    rw [if_neg (Nat.ne_of_lt h3)]
    exact decide_eq_true h3
  · rw [if_neg h1] at hab; rw [if_pos h2] at hbc
    have h3 : a.data.length < c.data.length :=
      Nat.lt_of_lt_of_le (of_decide_eq_true hab) (Nat.le_of_eq h2)
    rw [if_neg (Nat.ne_of_lt h3)]
    exact decide_eq_true h3
  · rw [if_neg h1] at hab; rw [if_neg h2] at hbc
    have h3 := lt_trans (of_decide_eq_true hab) (of_decide_eq_true hbc)
    rw [if_neg (Nat.ne_of_lt h3)]
    exact decide_eq_true h3

theorem rankLE_total (a b : Zip) : (rankLE a b || rankLE b a) = true := by
  unfold rankLE
  rcases Nat.le_total (resolutionRank a.name) (resolutionRank b.name) with h | h <;> simp [h]

theorem rankLE_trans (a b c : Zip) (hab : rankLE a b = true)
    (hbc : rankLE b c = true) : rankLE a c = true := by
  unfold rankLE at hab hbc ⊢
  simp only [decide_eq_true_eq] at hab hbc ⊢
  exact le_trans hab hbc

theorem insertLE_perm {α : Type} (le : α → α → Bool) (x : α) (l : List α) :
    (insertLE le x l).Perm (x :: l) := by
  induction l with
  | nil => exact List.Perm.refl _
  | cons y ys ih =>
    by_cases h : le x y = true
    · rw [insertLE, if_pos h]
    · rw [insertLE, if_neg h]
      exact (ih.cons y).trans (List.Perm.swap x y ys)

theorem stableSort_perm {α : Type} (le : α → α → Bool) (l : List α) :
    (stableSort le l).Perm l := by
  induction l with
  | nil => exact List.Perm.refl _
  | cons x xs ih =>
    exact (insertLE_perm le x (stableSort le xs)).trans (ih.cons x)

theorem insertLE_pairwise {α : Type} (le : α → α → Bool)
    (htr : ∀ a b c, le a b = true → le b c = true → le a c = true)
    (hto : ∀ a b, (le a b || le b a) = true)
    (x : α) (l : List α) (h : List.Pairwise (fun a b => le a b = true) l) :
    List.Pairwise (fun a b => le a b = true) (insertLE le x l) := by
  induction l with
  | nil => simp [insertLE]
  | cons y ys ih =>
    rcases List.pairwise_cons.mp h with ⟨hy, hys⟩
    by_cases hxy : le x y = true
    · rw [insertLE, if_pos hxy]
      refine List.pairwise_cons.mpr ⟨?_, h⟩
      intro z hz
      rcases List.mem_cons.mp hz with rfl | hzys
      · exact hxy
      · exact htr x y z hxy (hy z hzys)
    · rw [insertLE, if_neg hxy]
      refine List.pairwise_cons.mpr ⟨?_, ih hys⟩
      intro z hz
      have hz' : z ∈ x :: ys := (insertLE_perm le x ys).subset hz
      rcases List.mem_cons.mp hz' with rfl | hzys
      · rcases Bool.or_eq_true_iff.mp (hto z y) with h1 | h1
        · exact absurd h1 hxy
        · exact h1
      · exact hy z hzys

theorem stableSort_pairwise {α : Type} (le : α → α → Bool)
    (htr : ∀ a b c, le a b = true → le b c = true → le a c = true)
    (hto : ∀ a b, (le a b || le b a) = true)
    (l : List α) :
    List.Pairwise (fun a b => le a b = true) (stableSort le l) := by
  induction l with
  | nil => simp [stableSort]
  | cons x xs ih => exact insertLE_pairwise le htr hto x (stableSort le xs) ih

/-- The head of a stable sort under a transitive total Boolean order is a
member of the list and is below every member. -/
theorem head_stableSort_min {α : Type} (le : α → α → Bool)
    (htr : ∀ a b c, le a b = true → le b c = true → le a c = true)
    (hto : ∀ a b, (le a b || le b a) = true)
    (l : List α) (m : α) (hm : (stableSort le l).head? = some m) :
    m ∈ l ∧ ∀ x ∈ l, le m x = true := by
  have hperm := stableSort_perm le l
  have hsorted := stableSort_pairwise le htr hto l
  cases hms : stableSort le l with
  | nil => rw [hms] at hm; cases hm
  | cons a t =>
    rw [hms] at hm
    have ham : a = m := by cases hm; rfl
    subst ham
    rw [hms] at hperm hsorted
    constructor
    · exact hperm.subset (List.mem_cons_self a t)
    · intro x hx
      have hx' : x ∈ a :: t := hperm.symm.subset hx
      rcases List.mem_cons.mp hx' with rfl | hxt
      · have := hto x x
        simpa using this
      · exact List.rel_of_pairwise_cons hsorted hxt

theorem addToGroups_keys (gs : List (String × List Zip)) (s : String) (z : Zip) :
    (addToGroups gs s z).map Prod.fst =
      if s ∈ gs.map Prod.fst then gs.map Prod.fst else gs.map Prod.fst ++ [s] := by
  induction gs with
  | nil => simp [addToGroups]
  | cons p rest ih =>
    obtain ⟨s', ps⟩ := p
    by_cases h : s' = s
    · subst h
      simp [addToGroups]
    · have hne : ¬ s = s' := fun e => h e.symm
      simp only [addToGroups, if_neg h, List.map_cons, ih]
      by_cases hmem : s ∈ rest.map Prod.fst
      · rw [if_pos hmem, if_pos (List.mem_cons_of_mem _ hmem)]
      · rw [if_neg hmem, if_neg (by
          intro hc
          rcases List.mem_cons.mp hc with e | e
          · exact hne e
          · exact hmem e)]
        simp

theorem filter_singleton_slug_eq (z : Zip) (s : String) (hz : slugOf z = some s) :
    List.filter (fun y => decide (slugOf y = some s)) [z] = [z] := by
  simp [List.filter, hz]

theorem filter_singleton_slug_ne (z : Zip) (s t : String) (hz : slugOf z = some s)
    (hne : ¬ s = t) : List.filter (fun y => decide (slugOf y = some t)) [z] = [] := by
  simp [List.filter, hz, hne]

theorem filter_singleton_slug_none (z : Zip) (t : String) (hz : slugOf z = none) :
    List.filter (fun y => decide (slugOf y = some t)) [z] = [] := by
  simp [List.filter, hz]

theorem addToGroups_filter (done : List Zip) (z : Zip) (s : String)
    (hz : slugOf z = some s) :
    ∀ (gs : List (String × List Zip)),
    (∀ p ∈ gs, p.2 = done.filter (fun y => decide (slugOf y = some p.1))) →
    ((gs.map Prod.fst).Nodup) →
    (s ∉ gs.map Prod.fst → done.filter (fun y => decide (slugOf y = some s)) = []) →
    ∀ p ∈ addToGroups gs s z,
      p.2 = (done ++ [z]).filter (fun y => decide (slugOf y = some p.1)) := by
  intro gs
  induction gs with
  | nil =>
    intro _ _ h3 p hp
    simp only [addToGroups, List.mem_singleton] at hp
    subst hp
    simp only [List.filter_append, h3 (by simp)]
    simp [List.filter, hz]
  | cons q rest ih =>
    obtain ⟨s', ps⟩ := q
    intro h1 h2 h3 p hp
    by_cases h : s' = s
    · subst h
      simp only [addToGroups, if_pos rfl] at hp
      rcases List.mem_cons.mp hp with e | hpr
      · subst e
        have hhead : ps = done.filter (fun y => decide (slugOf y = some s')) :=
          h1 (s', ps) (List.mem_cons_self _ _)
        simp only [List.filter_append, ← hhead]
        rw [filter_singleton_slug_eq z s' hz]
      · have hps' : p.1 ≠ s' := by
          intro e
          have hkeys := h2
          simp only [List.map_cons, List.nodup_cons] at hkeys
          exact hkeys.1 (e ▸ (List.mem_map_of_mem Prod.fst hpr))
        have hfe := h1 p (List.mem_cons_of_mem _ hpr)
        rw [hfe, List.filter_append]
        rw [filter_singleton_slug_ne z s' p.1 hz (fun e => hps' e.symm), List.append_nil]
    · simp only [addToGroups, if_neg h] at hp
      rcases List.mem_cons.mp hp with e | hpr
      · subst e
        have hhead := h1 (s', ps) (List.mem_cons_self _ _)
        rw [hhead, List.filter_append]
        rw [filter_singleton_slug_ne z s s' hz (fun e => h e.symm), List.append_nil]
      · have h2' : (rest.map Prod.fst).Nodup := by
          simp only [List.map_cons, List.nodup_cons] at h2
          exact h2.2
        have h1' : ∀ p ∈ rest, p.2 = done.filter (fun y => decide (slugOf y = some p.1)) :=
          fun p hp => h1 p (List.mem_cons_of_mem _ hp)
        have h3' : s ∉ rest.map Prod.fst →
            done.filter (fun y => decide (slugOf y = some s)) = [] := by
          intro hs
          apply h3
          intro hc
          rcases List.mem_cons.mp hc with e | e
          · exact h (e.symm)
          · exact hs e
        exact ih h1' h2' h3' p hpr

theorem buildGroups_inv :
    ∀ (todo : List Zip) (gs : List (String × List Zip)) (done : List Zip),
    (∀ p ∈ gs, p.2 = done.filter (fun y => decide (slugOf y = some p.1))) →
    ((gs.map Prod.fst).Nodup) →
    (∀ t, t ∉ gs.map Prod.fst → done.filter (fun y => decide (slugOf y = some t)) = []) →
    (∀ p ∈ buildGroups todo gs,
        p.2 = (done ++ todo).filter (fun y => decide (slugOf y = some p.1))) := by
  intro todo
  induction todo with
  | nil =>
    intro gs done h1 _ _ p hp
    simpa using h1 p hp
  | cons z rest ih =>
    intro gs done h1 h2 h3 p hp
    have hsplit : done ++ z :: rest = (done ++ [z]) ++ rest := by simp
    rw [hsplit]
    cases hz : slugOf z with
    | none =>
      have h1' : ∀ p ∈ gs, p.2 = (done ++ [z]).filter (fun y => decide (slugOf y = some p.1)) := by
        intro p hp
        rw [h1 p hp, List.filter_append, filter_singleton_slug_none z _ hz, List.append_nil]
      have h3' : ∀ t, t ∉ gs.map Prod.fst →
          (done ++ [z]).filter (fun y => decide (slugOf y = some t)) = [] := by
        intro t ht
        rw [List.filter_append, filter_singleton_slug_none z t hz, List.append_nil, h3 t ht]
      have hb : buildGroups (z :: rest) gs = buildGroups rest gs := by
        simp [buildGroups, hz]
      rw [hb] at hp
      exact ih gs (done ++ [z]) h1' h2 h3' p hp
    | some s =>
      have h1' := addToGroups_filter done z s hz gs h1 h2 (h3 s)
      have hkeys := addToGroups_keys gs s z
      have h2' : ((addToGroups gs s z).map Prod.fst).Nodup := by
        rw [hkeys]
        by_cases hmem : s ∈ gs.map Prod.fst
        · rw [if_pos hmem]; exact h2
        · rw [if_neg hmem]
          exact List.Nodup.append h2 (List.nodup_singleton s)
            (fun t ht hts => hmem ((List.mem_singleton.mp hts) ▸ ht))
      have h3' : ∀ t, t ∉ (addToGroups gs s z).map Prod.fst →
          (done ++ [z]).filter (fun y => decide (slugOf y = some t)) = [] := by
        intro t ht
        rw [hkeys] at ht
        have hts : ¬ t = s := by
          intro e
          subst e
          by_cases hmem : t ∈ gs.map Prod.fst
          · rw [if_pos hmem] at ht; exact ht hmem
          · rw [if_neg hmem] at ht
            exact ht (List.mem_append.mpr (Or.inr (List.mem_singleton_self t)))
        have htg : t ∉ gs.map Prod.fst := by
          intro hmem
          by_cases hm : s ∈ gs.map Prod.fst
          · rw [if_pos hm] at ht; exact ht hmem
          · rw [if_neg hm] at ht; exact ht (List.mem_append.mpr (Or.inl hmem))
        rw [List.filter_append, filter_singleton_slug_ne z s t hz (fun e => hts e.symm),
          List.append_nil, h3 t htg]
      have hb : buildGroups (z :: rest) gs = buildGroups rest (addToGroups gs s z) := by
        simp [buildGroups, hz]
      rw [hb] at hp
      exact ih (addToGroups gs s z) (done ++ [z]) h1' h2' h3' p hp

/-- Every group main builds holds exactly the discovered zips carrying its
slug, in discovery order. -/
theorem groupsOf_filter (zips : List Zip) :
    ∀ p ∈ groupsOf zips,
      p.2 = (sortedZips zips).filter (fun y => decide (slugOf y = some p.1)) := by
  intro p hp
  have := buildGroups_inv (sortedZips zips) [] [] (by intro p hp; cases hp)
    List.nodup_nil (by intro t _; rfl) p hp
  simpa using this

theorem loop_spec (dryRun : Bool) :
    ∀ (l : List (String × Zip)) (st : LoopState),
    (l.foldl (processSlug dryRun) st).failures = st.failures + (l.filter slugFails).length
    ∧ (l.foldl (processSlug dryRun) st).imported
        = st.imported ++ (l.filter (fun sz => !slugFails sz)).map (fun sz => pickTextures sz.1 sz.2)
    ∧ (l.foldl (processSlug dryRun) st).writes
        = st.writes ++ (l.filter (fun sz => !slugFails sz)).flatMap
            (fun sz => importOneWrites (pickTextures sz.1 sz.2) dryRun) := by
  intro l
  induction l with
  | nil => intro st; simp
  | cons sz rest ih =>
    intro st
    by_cases hr : sz.2.readable
    · by_cases hf : (optFalsy (pickTextures sz.1 sz.2).basecolor
          || optFalsy (pickTextures sz.1 sz.2).normal_gl) = true
      · have hfails : slugFails sz = true := by
          simp only [slugFails, hr]
          simp only [Bool.or_assoc]
          rw [hf]
          simp
        have hstep : processSlug dryRun st sz = { st with failures := st.failures + 1 } := by
          simp [processSlug, hr, hf]
        simp only [List.foldl_cons, hstep, List.filter_cons, hfails]
        obtain ⟨i1, i2, i3⟩ := ih { st with failures := st.failures + 1 }
        refine ⟨?_, ?_, ?_⟩
        · rw [i1]; simp; omega
        · rw [i2]; simp
        · rw [i3]; simp
      · have hfails : slugFails sz = false := by
          simp only [slugFails, hr]
          simp only [Bool.or_assoc]
          rw [Bool.not_true, Bool.false_or]
          exact (Bool.not_eq_true _).mp hf
        have hstep : processSlug dryRun st sz =
            { st with imported := st.imported ++ [pickTextures sz.1 sz.2],
                      writes := st.writes ++ importOneWrites (pickTextures sz.1 sz.2) dryRun } := by
          simp [processSlug, hr, hf]
        simp only [List.foldl_cons, hstep, List.filter_cons, hfails]
        obtain ⟨i1, i2, i3⟩ := ih { st with
          imported := st.imported ++ [pickTextures sz.1 sz.2],
          writes := st.writes ++ importOneWrites (pickTextures sz.1 sz.2) dryRun }
        refine ⟨?_, ?_, ?_⟩
        · rw [i1]; simp
        · rw [i2]; simp
        · rw [i3]; simp
    · have hr' : sz.2.readable = false := (Bool.not_eq_true _).mp hr
      have hfails : slugFails sz = true := by simp [slugFails, hr']
      have hstep : processSlug dryRun st sz = { st with failures := st.failures + 1 } := by
        simp [processSlug, hr']
      simp only [List.foldl_cons, hstep, List.filter_cons, hfails]
      obtain ⟨i1, i2, i3⟩ := ih { st with failures := st.failures + 1 }
      refine ⟨?_, ?_, ?_⟩
      · rw [i1]; simp; omega
      · rw [i2]; simp
      · rw [i3]; simp

/-- The candidate archives used in refuting claim C1. -/
def cexZip3k : Zip := { name := "foo_3k.zip", readable := true, members := [] }

/-- Second candidate archive of the C1 counterexample group. -/
def cexZip4k : Zip := { name := "foo_4k.zip", readable := true, members := [] }

/-- Claim C1, counterexample: for the slug foo with candidates foo_3k.zip and
foo_4k.zip the claim mandates the 3k file (smallest numeric suffix), but the
driver ranks 3k at 999 and chooses the 4k file. -/
theorem claim_C1_counterexample :
    slugFromZipName cexZip3k.name = some "foo"
    ∧ slugFromZipName cexZip4k.name = some "foo"
    ∧ 3 < 4
    ∧ chosenOf [cexZip3k, cexZip4k] = [("foo", cexZip4k)]
    ∧ resolutionRank cexZip3k.name = 999 := by
  refine ⟨by decide, by decide, by decide, ?_, by decide⟩
  decide

/-- Claim C1, amended: every chosen pair consists of a discovered input zip
whose name carries that slug and whose resolution rank (1 for a 1k ending, 2
for 2k, 4 for 4k, 999 otherwise — so the smallest of the suffixes 1k, 2k, 4k
wins, and any other numeric suffix ranks last) is minimal among all input
zips carrying the same slug; zips not matching the slug pattern are never
grouped or chosen. -/
theorem claim_C1_amended (zips : List Zip) (s : String) (best : Zip)
    (hmem : (s, best) ∈ chosenOf zips) :
    best ∈ zips
    ∧ slugFromZipName best.name = some s
    ∧ (∀ z ∈ zips, slugFromZipName z.name = some s →
        resolutionRank best.name ≤ resolutionRank z.name)
    ∧ (resolutionRank "a_1k.zip" = 1 ∧ resolutionRank "a_2k.zip" = 2
        ∧ resolutionRank "a_4k.zip" = 4 ∧ resolutionRank "a_3k.zip" = 999) := by
  simp only [chosenOf, List.mem_filterMap] at hmem
  obtain ⟨g, hg, hpick⟩ := hmem
  simp only [Option.map_eq_some'] at hpick
  obtain ⟨w, hw, he⟩ := hpick
  have hgs : g.1 = s := congrArg Prod.fst he
  have hwb : w = best := congrArg Prod.snd he
  subst hwb
  have hfilter := groupsOf_filter zips g hg
  have hmin := head_stableSort_min rankLE rankLE_trans rankLE_total g.2 w hw
  have hbest_in : w ∈ g.2 := hmin.1
  rw [hfilter] at hbest_in
  have hbest_props := List.mem_filter.mp hbest_in
  have hbest_slug : slugOf w = some s := by
    have hd := of_decide_eq_true hbest_props.2
    rw [hgs] at hd
    exact hd
  have hperm := stableSort_perm nameLE zips
  refine ⟨hperm.subset hbest_props.1, hbest_slug, ?_, ?_⟩
  · intro z hzin hslug
    have hz_in_sorted : z ∈ sortedZips zips := hperm.symm.subset hzin
    have hz_in_g : z ∈ g.2 := by
      rw [hfilter]
      refine List.mem_filter.mpr ⟨hz_in_sorted, ?_⟩
      rw [hgs]
      exact decide_eq_true hslug
    exact of_decide_eq_true (hmin.2 z hz_in_g)
  · exact ⟨by decide, by decide, by decide, by decide⟩

theorem chosenOf_of_not_isEmpty {zips : List Zip}
    (h : ¬ (chosenOf zips).isEmpty = true) : chosenOf zips ≠ [] := by
  intro e
  rw [e] at h
  exact h rfl

theorem runMain_failures (zips : List Zip) (dryRun manifestOk : Bool) :
    (runMain zips dryRun manifestOk).failures
      = ((sortedChosen zips).filter slugFails).length := by
  by_cases h : (chosenOf zips).isEmpty = true
  · have hnil : chosenOf zips = [] := List.isEmpty_iff.mp h
    simp [runMain, h, sortedChosen, hnil, stableSort]
  · obtain ⟨l1, _, _⟩ := loop_spec dryRun (sortedChosen zips) ⟨0, [], []⟩
    simp only [runMain, if_neg h]
    rw [l1]
    simp

theorem runMain_imported (zips : List Zip) (dryRun manifestOk : Bool) :
    (runMain zips dryRun manifestOk).imported
      = ((sortedChosen zips).filter (fun t => !slugFails t)).map
          (fun t => pickTextures t.1 t.2) := by
  by_cases h : (chosenOf zips).isEmpty = true
  · have hnil : chosenOf zips = [] := List.isEmpty_iff.mp h
    simp [runMain, h, sortedChosen, hnil, stableSort]
  · obtain ⟨_, l2, _⟩ := loop_spec dryRun (sortedChosen zips) ⟨0, [], []⟩
    simp only [runMain, if_neg h]
    rw [l2]
    rfl

theorem importOneWrites_dry (p : Picked) : importOneWrites p true = [] := rfl

theorem runMain_writes_dry (zips : List Zip) (manifestOk : Bool) :
    (runMain zips true manifestOk).writes = [] := by
  by_cases h : (chosenOf zips).isEmpty = true
  · simp [runMain, h]
  · obtain ⟨_, _, l3⟩ := loop_spec true (sortedChosen zips) ⟨0, [], []⟩
    simp only [runMain, if_neg h]
    rw [l3]
    simp [importOneWrites_dry]

/-- Claim C2: a chosen slug whose selection lacks a truthy base-color or
normal-map member fails; the failure count of a run is exactly the number of
failing chosen slugs, and the imported selections are exactly those of all
non-failing chosen slugs — so per-slug errors never abort the batch and
every other slug is still attempted and imported. -/
theorem claim_C2 (zips : List Zip) (dryRun manifestOk : Bool) (sz : String × Zip)
    (hmem : sz ∈ sortedChosen zips) (hread : sz.2.readable = true)
    (hmiss : (optFalsy (pickTextures sz.1 sz.2).basecolor
      || optFalsy (pickTextures sz.1 sz.2).normal_gl) = true) :
    slugFails sz = true
    ∧ (runMain zips dryRun manifestOk).failures
        = ((sortedChosen zips).filter slugFails).length
    ∧ (runMain zips dryRun manifestOk).imported
        = ((sortedChosen zips).filter (fun t => !slugFails t)).map
            (fun t => pickTextures t.1 t.2) := by
  refine ⟨?_, runMain_failures zips dryRun manifestOk, runMain_imported zips dryRun manifestOk⟩
  simp only [slugFails, hread, Bool.not_true, Bool.false_or, Bool.or_assoc]
  exact hmiss

/-- The archive missing its normal map in the C2 witness batch. -/
def wFailZip : Zip :=
  { name := "bad_1k.zip", readable := true, members := ["textures/bad_diff_1k.jpg"] }

/-- The complete archive in the C2 witness batch. -/
def wGoodZip : Zip :=
  { name := "good_1k.zip", readable := true,
    members := ["textures/good_diff_1k.jpg", "textures/good_nor_gl_1k.png"] }

theorem claim_C2_witness :
    slugFails ("bad", wFailZip) = true
    ∧ (runMain [wFailZip, wGoodZip] false true).failures = 1
    ∧ (runMain [wFailZip, wGoodZip] false true).imported
        = [pickTextures "good" wGoodZip] := by
  have h := claim_C2 [wFailZip, wGoodZip] false true ("bad", wFailZip)
    (by decide) (by decide) (by decide)
  refine ⟨h.1, ?_, ?_⟩
  · rw [h.2.1]; decide
  · rw [h.2.2]; decide

/-- Claim C6: the exit code is 1 exactly when no archive is discovered
(the chosen list is empty), 2 exactly when archives were discovered and at
least one per-slug failure occurred, 0 exactly when archives were discovered
and no failure occurred; a manifest write failure never changes the exit
code and is only recorded as a warning. -/
theorem claim_C6 (zips : List Zip) (dryRun manifestOk : Bool) :
    ((runMain zips dryRun manifestOk).exitCode = 1 ↔ chosenOf zips = [])
    ∧ ((runMain zips dryRun manifestOk).exitCode = 2 ↔
        chosenOf zips ≠ [] ∧ 0 < (runMain zips dryRun manifestOk).failures)
    ∧ ((runMain zips dryRun manifestOk).exitCode = 0 ↔
        chosenOf zips ≠ [] ∧ (runMain zips dryRun manifestOk).failures = 0)
    ∧ (runMain zips dryRun true).exitCode = (runMain zips dryRun false).exitCode
    ∧ (dryRun = false → chosenOf zips ≠ [] → manifestOk = false →
        (runMain zips dryRun manifestOk).manifestWarned = true
        ∧ (runMain zips dryRun manifestOk).manifestWritten = false) := by
  by_cases h : (chosenOf zips).isEmpty = true
  · have hnil : chosenOf zips = [] := List.isEmpty_iff.mp h
    simp [runMain, h, hnil]
  · have hne : chosenOf zips ≠ [] := chosenOf_of_not_isEmpty h
    by_cases hf : ((sortedChosen zips).foldl (processSlug dryRun) ⟨0, [], []⟩).failures = 0
    · cases dryRun <;> cases manifestOk <;> simp [runMain, h, hf, hne]
    · cases dryRun <;> cases manifestOk <;>
        simp [runMain, h, hf, hne, Nat.pos_of_ne_zero hf]

/-- Claim C7: a dry run performs no writes at all (no texture, auxiliary or
manifest write appears in its write log and no manifest is written), and it
computes the same imported selections (basecolor, normal, arm, extra files
are all fields of the Picked records) and the same failure count as a real
run over the same input, whatever the manifest outcome of the real run. -/
theorem claim_C7 (zips : List Zip) (manifestOk manifestOk' : Bool) :
    (runMain zips true manifestOk).writes = []
    ∧ (runMain zips true manifestOk).manifestWritten = false
    ∧ (runMain zips true manifestOk).failures = (runMain zips false manifestOk').failures
    ∧ (runMain zips true manifestOk).imported = (runMain zips false manifestOk').imported := by
  refine ⟨runMain_writes_dry zips manifestOk, ?_, ?_, ?_⟩
  · by_cases h : (chosenOf zips).isEmpty = true
    · simp [runMain, h]
    · have hne := chosenOf_of_not_isEmpty h
      simp [runMain, hne]
  · rw [runMain_failures zips true manifestOk, runMain_failures zips false manifestOk']
  · rw [runMain_imported zips true manifestOk, runMain_imported zips false manifestOk']

/-- Claim C3: texture-role selection tries the patterns in order — a later
pattern is consulted exactly when the current one matches no member — and
the winning pattern's result is a hit that is minimal by length, with
lexicographic order breaking equal lengths. -/
theorem claim_C3 (names : List String) (p : String → Bool) (ps : List (String → Bool)) :
    (names.filter (fun n => p (lowerStr n)) = [] →
      pickBest names (p :: ps) = pickBest names ps)
    ∧ (names.filter (fun n => p (lowerStr n)) ≠ [] →
      ∃ m, pickBest names (p :: ps) = some m
        ∧ m ∈ names.filter (fun n => p (lowerStr n))
        ∧ ∀ x ∈ names.filter (fun n => p (lowerStr n)),
            m.data.length < x.data.length
            ∨ (m.data.length = x.data.length ∧ lexLE m.data x.data = true)) := by
  constructor
  · intro h
    simp [pickBest, h, stableSort]
  · intro h
    cases hs : (stableSort keyLE (names.filter (fun n => p (lowerStr n)))).head? with
    | none =>
      exfalso
      have hnil := List.head?_eq_none_iff.mp hs
      have := (stableSort_perm keyLE (names.filter (fun n => p (lowerStr n)))).symm
      rw [hnil] at this
      exact h this.eq_nil
    | some m =>
      have hmin := head_stableSort_min keyLE keyLE_trans keyLE_total _ m hs
      refine ⟨m, ?_, hmin.1, ?_⟩
      · simp [pickBest, hs]
      · intro x hx
        have hk := hmin.2 x hx
        unfold keyLE at hk
        by_cases hlen : m.data.length = x.data.length
        · rw [if_pos hlen] at hk
          exact Or.inr ⟨hlen, hk⟩
        · rw [if_neg hlen] at hk
          exact Or.inl (of_decide_eq_true hk)

theorem claim_C3_witness :
    pickBest ["x"] [texPat "foo" "_diff_1k.jpg", texPat "foo" "_color_1k.jpg"]
        = pickBest ["x"] [texPat "foo" "_color_1k.jpg"]
    ∧ pickBest ["textures/foo_diff_1k.jpg"] [texPat "foo" "_diff_1k.jpg"] ≠ none := by
  constructor
  · exact (claim_C3 ["x"] (texPat "foo" "_diff_1k.jpg")
      [texPat "foo" "_color_1k.jpg"]).1 (by decide)
  · intro hn
    obtain ⟨m, hm, _, _⟩ := (claim_C3 ["textures/foo_diff_1k.jpg"]
      (texPat "foo" "_diff_1k.jpg") []).2 (by decide)
    rw [hm] at hn
    cases hn

/-- The archive refuting claim C4: a license file inside the textures
folder. -/
def cexZipC4 : Zip :=
  { name := "foo_1k.zip", readable := true, members := ["textures/license.txt"] }

/-- Claim C4, counterexample: the member textures/license.txt lies inside
the textures folder, yet it is collected as an auxiliary file, because the
license/licence/attribution branch has no textures-folder exclusion. -/
theorem claim_C4_counterexample :
    strContains (lowerStr "textures/license.txt") "textures/" = true
    ∧ "textures/license.txt" ∈ (pickTextures "foo" cexZipC4).extra_files := by
  exact ⟨by decide, by decide⟩

/-- Claim C4, amended: the collected auxiliary set contains exactly the
members whose lowercased name contains license, licence or attribution —
wherever they lie, including inside the textures folder — together with the
members ending in .txt or .md whose lowercased name does not contain the
textures/ segment. -/
theorem claim_C4_amended (slug : String) (z : Zip) (name : String) :
    name ∈ (pickTextures slug z).extra_files
      ↔ (name ∈ z.members
          ∧ (strContains (lowerStr name) "license" = true
            ∨ strContains (lowerStr name) "licence" = true
            ∨ strContains (lowerStr name) "attribution" = true
            ∨ ((strEndsWith (lowerStr name) ".txt" = true
                ∨ strEndsWith (lowerStr name) ".md" = true)
                ∧ strContains (lowerStr name) "textures/" = false))) := by
  have hmem : name ∈ (pickTextures slug z).extra_files
      ↔ (name ∈ z.members ∧ isExtra name = true) := by
    constructor
    · intro hin
      have h1 : name ∈ (z.members.filter isExtra).dedup :=
        (stableSort_perm strLE ((z.members.filter isExtra).dedup)).subset hin
      have h2 := List.mem_filter.mp (List.mem_dedup.mp h1)
      exact h2
    · intro hin
      have h1 : name ∈ (z.members.filter isExtra).dedup :=
        List.mem_dedup.mpr (List.mem_filter.mpr hin)
      exact (stableSort_perm strLE ((z.members.filter isExtra).dedup)).symm.subset h1
  rw [hmem]
  refine and_congr_right (fun _ => ?_)
  cases h1 : strContains (lowerStr name) "license" <;>
    cases h2 : strContains (lowerStr name) "licence" <;>
      cases h3 : strContains (lowerStr name) "attribution" <;>
        cases h4 : strEndsWith (lowerStr name) ".txt" <;>
          cases h5 : strEndsWith (lowerStr name) ".md" <;>
            cases h6 : strContains (lowerStr name) "textures/" <;>
              simp [isExtra, h1, h2, h3, h4, h5, h6]

theorem claim_C4_witness :
    "LICENSE.md" ∈ (pickTextures "foo"
      { name := "foo_1k.zip", readable := true,
        members := ["LICENSE.md", "readme.txt"] }).extra_files := by
  exact (claim_C4_amended "foo"
    { name := "foo_1k.zip", readable := true, members := ["LICENSE.md", "readme.txt"] }
    "LICENSE.md").mpr ⟨by decide, Or.inl (by decide)⟩

/-- Claim C5: the wall classifier returns false for every slug containing
grass; for grass-free slugs containing a surface keyword it returns true
exactly when a strong wall keyword (wall, cladding) is present; otherwise it
returns true exactly when a generic wall-ish keyword is present; in
particular old_concrete_wall is a wall and green_grass is not. -/
theorem claim_C5 (slug : String) :
    (strContains (lowerStr slug) "grass" = true → isWallSlug slug = false)
    ∧ (strContains (lowerStr slug) "grass" = false →
        surfaceKeys.any (fun k => strContains (lowerStr slug) k) = true →
        (isWallSlug slug = true ↔
          strongWallKeys.any (fun k => strContains (lowerStr slug) k) = true))
    ∧ (strContains (lowerStr slug) "grass" = false →
        surfaceKeys.any (fun k => strContains (lowerStr slug) k) = false →
        (isWallSlug slug = true ↔
          wallishKeys.any (fun k => strContains (lowerStr slug) k) = true))
    ∧ isWallSlug "old_concrete_wall" = true
    ∧ isWallSlug "green_grass" = false := by
  refine ⟨?_, ?_, ?_, by decide, by decide⟩
  · intro h
    simp [isWallSlug, h]
  · intro h hs
    simp [isWallSlug, h, hs]
  · intro h hs
    simp [isWallSlug, h, hs]

theorem claim_C5_witness :
    isWallSlug "green_grass" = false
    ∧ isWallSlug "asphalt_wall" = true
    ∧ isWallSlug "old_concrete_wall" = true := by
  refine ⟨(claim_C5 "green_grass").1 (by decide), ?_, (claim_C5 "x").2.2.2.1⟩
  exact ((claim_C5 "asphalt_wall").2.1 (by decide) (by decide)).mpr (by decide)

/-- The archive of claim C8. -/
def c8Zip : Zip :=
  { name := "foo_1k.zip", readable := true,
    members := ["textures/foo_diff_1k.jpg", "textures/foo_nor_gl_1k.png"] }

/-- Claim C8: on an archive holding textures/foo_diff_1k.jpg and
textures/foo_nor_gl_1k.png for the slug foo, selection picks exactly those
two members as base color and normal map. -/
theorem claim_C8 :
    (pickTextures "foo" c8Zip).basecolor = some "textures/foo_diff_1k.jpg"
    ∧ (pickTextures "foo" c8Zip).normal_gl = some "textures/foo_nor_gl_1k.png" := by
  exact ⟨by decide, by decide⟩

/-- Claim C10: the extra_files field of every selection is duplicate-free
and sorted ascending, equivalently strictly increasing, whatever the order
of the archive listing. -/
theorem claim_C10 (slug : String) (z : Zip) :
    List.Pairwise (fun a b => strLE a b = true) (pickTextures slug z).extra_files
    ∧ ((pickTextures slug z).extra_files).Nodup
    ∧ List.Pairwise (fun a b => strLE a b = true ∧ a ≠ b)
        (pickTextures slug z).extra_files := by
  have h1 : List.Pairwise (fun a b => strLE a b = true)
      (stableSort strLE ((z.members.filter isExtra).dedup)) :=
    stableSort_pairwise strLE strLE_trans strLE_total _
  have h2 : (stableSort strLE ((z.members.filter isExtra).dedup)).Nodup :=
    (stableSort_perm strLE ((z.members.filter isExtra).dedup)).symm.nodup
      (List.nodup_dedup _)
  exact ⟨h1, h2, h1.and h2⟩

theorem extOrJpg_eq (m : String) :
    extOrJpg m = if pathSuffix m = "" then ".jpg" else lowerStr (pathSuffix m) := by
  unfold extOrJpg
  by_cases h : (pathSuffix m).data = []
  · have h2 : pathSuffix m = "" := String.ext h
    simp [lowerStr, h, h2]
  · have h2 : ¬ pathSuffix m = "" := by
      intro e
      rw [e] at h
      exact h rfl
    have h3 : (lowerStr (pathSuffix m)).data.isEmpty = false := by
      rcases hd : (pathSuffix m).data with _ | ⟨c, cs⟩
      · exact absurd hd h
      · simp [lowerStr, hd]
    simp [h2, h3]

/-- Claim C9: a base-color, normal-map or arm member with no filename
extension is extracted to a .jpg-named destination, and otherwise the
member's own extension, lowercased, is kept on the fixed basename. -/
theorem claim_C9 (p : Picked) (b n a : String)
    (hb : p.basecolor = some b) (hn : p.normal_gl = some n)
    (ha : p.arm = some a) (hane : a ≠ "") :
    ((targetDir p.slug ++ "basecolor"
        ++ (if pathSuffix b = "" then ".jpg" else lowerStr (pathSuffix b)), b)
      ∈ importOneWrites p false)
    ∧ ((targetDir p.slug ++ "normal_gl"
        ++ (if pathSuffix n = "" then ".jpg" else lowerStr (pathSuffix n)), n)
      ∈ importOneWrites p false)
    ∧ ((targetDir p.slug ++ "arm"
        ++ (if pathSuffix a = "" then ".jpg" else lowerStr (pathSuffix a)), a)
      ∈ importOneWrites p false) := by
  have hae : a.data.isEmpty = false := by
    rcases hd : a.data with _ | ⟨c, cs⟩
    · exact absurd (String.ext hd) hane
    · rfl
  simp only [importOneWrites, Bool.false_eq_true, if_false, hb, hn, ha, Option.getD_some,
    hae, extOrJpg_eq]
  refine ⟨?_, ?_, ?_⟩ <;> simp

/-- The selection used to witness claim C9 (its arm member has an
extension; an extensionless case is exercised separately below). -/
def c9Picked : Picked :=
  { slug := "foo", zip_path := "foo_1k.zip", is_wall := false,
    basecolor := some "textures/foo_diff_1k.jpg",
    normal_gl := some "textures/NOEXT",
    arm := some "textures/foo_arm_1k.PNG",
    extra_files := [] }

theorem claim_C9_witness :
    (("assets/public/pbr/foo/" ++ "basecolor" ++ ".jpg", "textures/foo_diff_1k.jpg")
      ∈ importOneWrites c9Picked false)
    ∧ (("assets/public/pbr/foo/" ++ "normal_gl" ++ ".jpg", "textures/NOEXT")
      ∈ importOneWrites c9Picked false)
    ∧ (("assets/public/pbr/foo/" ++ "arm" ++ ".png", "textures/foo_arm_1k.PNG")
      ∈ importOneWrites c9Picked false) := by
  have h := claim_C9 c9Picked "textures/foo_diff_1k.jpg" "textures/NOEXT"
    "textures/foo_arm_1k.PNG" rfl rfl rfl (by decide)
  refine ⟨?_, ?_, ?_⟩
  · have h1 := h.1
    rw [show (if pathSuffix "textures/foo_diff_1k.jpg" = "" then ".jpg"
      else lowerStr (pathSuffix "textures/foo_diff_1k.jpg")) = ".jpg" from by decide] at h1
    exact h1
  · have h2 := h.2.1
    rw [show (if pathSuffix "textures/NOEXT" = "" then ".jpg"
      else lowerStr (pathSuffix "textures/NOEXT")) = ".jpg" from by decide] at h2
    exact h2
  · have h3 := h.2.2
    rw [show (if pathSuffix "textures/foo_arm_1k.PNG" = "" then ".jpg"
      else lowerStr (pathSuffix "textures/foo_arm_1k.PNG")) = ".png" from by decide] at h3
    exact h3

theorem claim_C1_witness :
    cexZip4k ∈ [cexZip3k, cexZip4k]
    ∧ slugFromZipName "foo_4k.zip" = some "foo"
    ∧ resolutionRank "foo_4k.zip" ≤ resolutionRank "foo_3k.zip" := by
  have h := claim_C1_amended [cexZip3k, cexZip4k] "foo" cexZip4k (by decide)
  exact ⟨h.1, h.2.1, h.2.2.1 cexZip3k (by decide) (by decide)⟩

theorem claim_C6_witness :
    (runMain [wFailZip, wGoodZip] false false).exitCode = 2
    ∧ (runMain [wFailZip, wGoodZip] false false).manifestWarned = true
    ∧ (runMain [] false false).exitCode = 1 := by
  have h := claim_C6 [wFailZip, wGoodZip] false false
  refine ⟨?_, ?_, ?_⟩
  · exact (h.2.1).mpr ⟨by decide, by rw [runMain_failures]; decide⟩
  · exact (h.2.2.2.2 rfl (by decide) rfl).1
  · exact (claim_C6 [] false false).1.mpr (by decide)
